import Mathlib

/-
Shallow embedding of the dependency-analysis core in
src/lib/Core/Dependency.cpp (Tracer-X KLEE), together with theorems
checking the specification's claims about it.

Modelling conventions:
- C++ raw pointers to `VersionedValue` / `MemoryLocation` / `const Array`
  are modelled as `Option Nat`: `some k` is a genuine object identified by
  its address `k`, `none` is the null pointer.  Pointer equality is
  equality of these values.
- `std::map` is modelled as an association list; `aset` mirrors
  `m[k] = v` / `m.at(k) = v` (overwrite or append), `ains` mirrors
  `std::map::insert` (keep the existing entry).  `std::set` is modelled
  as a duplicate-free list built with `setIns` (insert if absent).
- Functions whose C++ recursion is not structural (fixpoint loops,
  graph walks) take an explicit fuel argument; exhausted fuel returns
  the state unchanged.  All theorems either hold for every fuel or are
  evaluated at a fuel large enough for the concrete input.
-/

namespace TracerX

/-! ### Association-list model of std::map -/

/-- Lookup in a `std::map` modelled as an association list (`find`). -/
def alookup {α β : Type} [DecidableEq α] : List (α × β) → α → Option β
  | [], _ => none
  | (k, v) :: rest, k' => if k = k' then some v else alookup rest k'

/-- The `m[k] = v` / `m.at(k) = v` update of a `std::map`: overwrite the
existing entry for `k`, or append a fresh one. -/
def aset {α β : Type} [DecidableEq α] : List (α × β) → α → β → List (α × β)
  | [], k, v => [(k, v)]
  | (k0, v0) :: rest, k, v =>
    if k0 = k then (k0, v) :: rest else (k0, v0) :: aset rest k v

/-- The `std::map::insert` operation: keep an existing entry for the key,
otherwise append. -/
def ains {α β : Type} [DecidableEq α] (m : List (α × β)) (k : α) (v : β) :
    List (α × β) :=
  match alookup m k with
  | some _ => m
  | none => m ++ [(k, v)]

/-- Insert into a `std::set` modelled as a duplicate-free list. -/
def setIns {α : Type} [DecidableEq α] (s : List α) (x : α) : List α :=
  if x ∈ s then s else s ++ [x]

/-- Insert every element of `xs` into the set `s` (`insert(begin, end)`). -/
def setInsAll {α : Type} [DecidableEq α] (s : List α) (xs : List α) : List α :=
  xs.foldl setIns s

/-- The keys of an association list. -/
def akeys {α β : Type} (m : List (α × β)) : List α := m.map Prod.fst

/-! ### Pointer domains -/

/-- A (possibly null) `MemoryLocation *`. -/
abbrev LocP := Option Nat

/-- A (possibly null) `VersionedValue *`. -/
abbrev ValP := Option Nat

/-! ### Tabbing utility (`makeTabs` / `appendTab`, Dependency.cpp:1682-1690) -/

/-- `appendTab(prefix)` returns `prefix` with one fixed 8-space unit
appended (Dependency.cpp:1690). -/
def appendTab (pre : String) : String := pre ++ "        "

/-- The body of `makeTabs`' loop: each iteration executes
`tabsString += appendTab(tabsString)` (Dependency.cpp:1684-1686).  The loop
counter only fixes the number of iterations, so it is modelled by a
countdown. -/
def makeTabsLoop : Nat → String → String
  | 0, s => s
  | n + 1, s => makeTabsLoop n (s ++ appendTab s)

/-- `makeTabs(paddingAmount)` (Dependency.cpp:1682-1688). -/
def makeTabs (paddingAmount : Nat) : String := makeTabsLoop paddingAmount ""

/-! ### Dependency frame state (the fields used by the claims) -/

/-- One `Dependency` frame's relation maps (the fields reached by the
claims under check).  The parent chain is modelled as a `List Dependency`
whose head is the current frame, so `parentDependency` is the tail's head. -/
structure Dependency where
  versionedLocationsList : List LocP
  coreLocations : List LocP
  storesMap : List (LocP × ValP)
  storageOfMap : List (ValP × List LocP)
  flowsToMap : List (ValP × List (ValP × LocP))
deriving DecidableEq

/-- `Dependency::updateStore` (Dependency.cpp:629-652): overwrite the
frame's single stored value for `location`, and append `location` to the
value's storage-of list. -/
def updateStore (d : Dependency) (location : LocP) (value : ValP) :
    Dependency :=
  let storesMap' :=
    match alookup d.storesMap location with
    | some _ => aset d.storesMap location value
    | none => d.storesMap ++ [(location, value)]
  let storageOfMap' :=
    match alookup d.storageOfMap value with
    | some list => aset d.storageOfMap value (list ++ [location])
    | none => d.storageOfMap ++ [(value, [location])]
  { d with storesMap := storesMap', storageOfMap := storageOfMap' }

/-- `Dependency::stores` (Dependency.cpp:672-685): the current store for
`loc` in this frame, else recurse to the parent; at most one entry. -/
def stores : List Dependency → LocP → List ValP
  | [], _ => []
  | d :: parents, loc =>
    match alookup d.storesMap loc with
    | some v => [v]
    | none => stores parents loc

/-! ### Flow maps (`directFlowSources` / `allFlowSources`) -/

/-- `Dependency::directLocalFlowSources` (Dependency.cpp:687-700): the
keys of the target's entry in `flowsToMap`. -/
def directLocalFlowSources (d : Dependency) (target : ValP) : List ValP :=
  match alookup d.flowsToMap target with
  | some sources => sources.map Prod.fst
  | none => []

/-- `Dependency::directFlowSources` (Dependency.cpp:702-711): local
sources with ancestral sources inserted at the front. -/
def directFlowSources : List Dependency → ValP → List ValP
  | [], _ => []
  | d :: parents, target =>
    directFlowSources parents target ++ directLocalFlowSources d target

/-- Pointer comparison used by `std::sort` on `VersionedValue *`:
null sorts first, genuine pointers by address. -/
def pLe : Option Nat → Option Nat → Bool
  | none, _ => true
  | some _, none => false
  | some a, some b => a ≤ b

/-- Insertion into a sorted list, for the `std::sort` model. -/
def sortedInsert (x : Option Nat) : List (Option Nat) → List (Option Nat)
  | [] => [x]
  | y :: rest => if pLe x y then x :: y :: rest else y :: sortedInsert x rest

/-- The `std::sort` call in `allFlowSources`, modelled as insertion sort
(any comparison sort yields the same sorted sequence). -/
def sortPtrs (l : List (Option Nat)) : List (Option Nat) :=
  l.foldr sortedInsert []

/-- Adjacent-duplicate removal, the logical output of `std::unique`. -/
def dedupAdj : List (Option Nat) → List (Option Nat)
  | [] => []
  | [x] => [x]
  | x :: y :: rest =>
    if x = y then dedupAdj (y :: rest) else x :: dedupAdj (y :: rest)

/-- The effect of calling `std::unique` on a vector WITHOUT erasing the
returned tail (Dependency.cpp:730): the deduplicated prefix is written in
place and the positions from its length onward keep the sorted input's
values. -/
def uniqueNoErase (l : List (Option Nat)) : List (Option Nat) :=
  let d := dedupAdj l
  d ++ l.drop d.length

/-- `Dependency::allFlowSources` (Dependency.cpp:713-732): transitive flow
sources plus the target, then `std::sort` and `std::unique` without
erasing the tail.  The C++ recursion follows flow edges; `fuel` bounds its
depth (the code assumes the flow relation is well founded). -/
def allFlowSources (fuel : Nat) (chain : List Dependency) (target : ValP) :
    List ValP :=
  match fuel with
  | 0 => []
  | fuel + 1 =>
    let stepSources := directFlowSources chain target
    let ret := stepSources.foldl
      (fun acc s => allFlowSources fuel chain s ++ acc) stepSources
    uniqueNoErase (sortPtrs (ret ++ [target]))

/-! ### Location graph (`LocationNode` / `LocationGraph`) -/

/-- A node of the location graph.  The node's own accessors
(`getLocation`, `getLevel`, `getParents`, `addParent`) live in the header,
which is not part of the sources; the fields follow the spec (§3): one
memory location, a level, and the set of parent nodes.  Node identity
(`LocationNode *`) is the index into the graph's `allNodes` list. -/
structure LocationNode where
  loc : LocP
  level : Nat
  parents : List Nat
deriving DecidableEq

/-- `LocationGraph`: all nodes created so far plus the current sinks,
both held as indices into `allNodes` (node pointers). -/
structure LocationGraph where
  allNodes : List LocationNode
  sinks : List Nat
deriving DecidableEq

/-- The pointer-dereferencing test `(*it)->getLocation() == loc` for the
node with index `i`; an out-of-range index (never created by the
operations below) compares false. -/
def nodeHasLoc (g : LocationGraph) (i : Nat) (loc : LocP) : Bool :=
  match g.allNodes[i]? with
  | some n => n.loc == loc
  | none => false

/-- Level of the node with index `i` (indices produced by the operations
below are always in range; a stray index reads level 0). -/
def nodeLevel (g : LocationGraph) (i : Nat) : Nat :=
  ((g.allNodes[i]?).map LocationNode.level).getD 0

/-- `LocationGraph::isVisited` (Dependency.cpp:205-214): linear scan of
`allNodes` for a node wrapping `loc`. -/
def isVisited (g : LocationGraph) (loc : LocP) : Bool :=
  g.allNodes.any (fun n => n.loc == loc)

/-- `LocationGraph::addNewSink` (Dependency.cpp:216-223). -/
def addNewSink (g : LocationGraph) (candidateSink : LocP) : LocationGraph :=
  if isVisited g candidateSink then g
  else
    { allNodes := g.allNodes ++ [⟨candidateSink, 0, []⟩],
      sinks := g.sinks ++ [g.allNodes.length] }

/-- First node index wrapping `loc`: the single scan in `addNewEdge`
(Dependency.cpp:229-243) takes, for each endpoint, the first matching
node, which is what `findIdx?` computes. -/
def findNodeIdx (g : LocationGraph) (loc : LocP) : Option Nat :=
  g.allNodes.findIdx? (fun n => n.loc == loc)

/-- Replace the element at index `i` (used for `targetNode->addParent`). -/
def listModify {α : Type} : List α → Nat → (α → α) → List α
  | [], _, _ => []
  | x :: rest, 0, f => f x :: rest
  | x :: rest, i + 1, f => x :: listModify rest i f

/-- `targetNode->addParent(sourceNode)`: `addParent` is declared in the
missing header; per the spec (§3) a node holds a *set* of parent nodes,
so the parent index is inserted if absent. -/
def addParentAt (g : LocationGraph) (ti si : Nat) : LocationGraph :=
  { g with
    allNodes :=
      listModify g.allNodes ti (fun n => { n with parents := setIns n.parents si }) }

/-- `LocationGraph::addNewEdge` (Dependency.cpp:225-276).  Finds or
creates nodes for both endpoints (an existing non-sink source is
duplicated), then records `target.addParent(source)` when a node was
created in this call or the target's level is not strictly below the
source's. -/
def addNewEdge (g : LocationGraph) (source target : LocP) : LocationGraph :=
  let tIdx0 := findNodeIdx g target
  let sIdx0 := findNodeIdx g source
  let targetNodeLevel := match tIdx0 with
    | some i => nodeLevel g i
    | none => 0
  let step1 : LocationGraph × Nat × Bool :=
    match sIdx0 with
    | none =>
      ({ allNodes := g.allNodes ++ [⟨source, targetNodeLevel + 1, []⟩],
         sinks := g.sinks }, g.allNodes.length, true)
    | some i =>
      if i ∈ g.sinks then (g, i, false)
      else
        ({ allNodes := g.allNodes ++ [⟨source, targetNodeLevel + 1, []⟩],
           sinks := g.sinks }, g.allNodes.length, true)
  let g1 := step1.1
  let sIdx := step1.2.1
  let step2 : LocationGraph × Nat × Bool :=
    match tIdx0 with
    | none =>
      ({ allNodes := g1.allNodes ++ [⟨target, targetNodeLevel, []⟩],
         sinks := g1.sinks ++ [g1.allNodes.length] },
       g1.allNodes.length, true)
    | some i => (g1, i, step1.2.2)
  let g2 := step2.1
  let tIdx := step2.2.1
  let newNode := step2.2.2
  if newNode = true ∨ ¬ nodeLevel g2 tIdx < nodeLevel g2 sIdx then
    addParentAt g2 tIdx sIdx
  else g2

/-- The scan of `sinks` in `consumeSinkNode` (Dependency.cpp:279-290):
returns the first sink index wrapping `loc` together with the sink list
with that position erased. -/
def sinkScan (g : LocationGraph) (loc : LocP) : List Nat → Option (Nat × List Nat)
  | [] => none
  | i :: rest =>
    if nodeHasLoc g i loc then some (i, rest)
    else
      match sinkScan g loc rest with
      | some (j, rest') => some (j, i :: rest')
      | none => none

/-- `LocationGraph::consumeSinkNode` (Dependency.cpp:278-301): remove the
sink for `loc` (if present) and promote its parents to sinks, each
de-duplicated against the current sink list. -/
def consumeSinkNode (g : LocationGraph) (loc : LocP) : LocationGraph :=
  match sinkScan g loc g.sinks with
  | none => g
  | some (i, sinksErased) =>
    let ps := ((g.allNodes[i]?).map LocationNode.parents).getD []
    { allNodes := g.allNodes, sinks := setInsAll sinksErased ps }

/-- `LocationGraph::getSinkLocations` (Dependency.cpp:303-313): the set of
the sinks' locations. -/
def getSinkLocations (g : LocationGraph) : List LocP :=
  g.sinks.foldl
    (fun acc i =>
      match g.allNodes[i]? with
      | some n => setIns acc n.loc
      | none => acc) []

/-- `LocationGraph::getSinksWithLocations` (Dependency.cpp:315-328): the
set of sink locations that belong to `locationsList`. -/
def getSinksWithLocations (g : LocationGraph) (locationsList : List LocP) :
    List LocP :=
  g.sinks.foldl
    (fun acc i =>
      match g.allNodes[i]? with
      | some n => if n.loc ∈ locationsList then setIns acc n.loc else acc
      | none => acc) []

/-- `LocationGraph::consumeSinksWithLocations` (Dependency.cpp:330-345):
consume every current sink whose location is in `locationsList`, then
recurse until fixpoint.  `fuel` bounds the fixpoint iteration (the C++
recursion terminates on the acyclic graphs the engine builds); exhausted
fuel returns the graph unchanged. -/
def consumeSinksWithLocations (fuel : Nat) (g : LocationGraph)
    (locationsList : List LocP) : LocationGraph :=
  match fuel with
  | 0 => g
  | fuel + 1 =>
    let sinkLocs := getSinksWithLocations g locationsList
    if sinkLocs = [] then g
    else
      consumeSinksWithLocations fuel (sinkLocs.foldl consumeSinkNode g)
        locationsList

/-! ### Location sources and graph construction -/

/-- The map returned by `directLocalLocationSources` /
`directLocationSources`: `std::map<VersionedValue *, MemoryLocation *>`,
whose keys and values may both be null. -/
abbrev AMap := List (ValP × LocP)

/-- `Dependency::directLocalLocationSources` (Dependency.cpp:1423-1461):
via-location edges are taken as they are; value-only edges are resolved
transitively; if nothing is found the last entry of the value's
storage-of list is returned under a null key.  `fuel` bounds the
value-edge recursion. -/
def directLocalLocationSources (d : Dependency) : Nat → ValP → AMap
  | 0, _ => []
  | fuel + 1, target =>
    let ret : AMap :=
      match alookup d.flowsToMap target with
      | some sources =>
        sources.foldl
          (fun ret sv =>
            match sv.2 with
            | none =>
              let extra := directLocalLocationSources d fuel sv.1
              if extra ≠ [] then extra.foldl (fun r e => ains r e.1 e.2) ret
              else aset ret sv.1 none
            | some l => aset ret sv.1 (some l)) []
      | none => []
    if ret = [] then
      match alookup d.storageOfMap target with
      | some locList =>
        match locList.getLast? with
        | some l => [(none, l)]
        | none => []
      | none => []
    else ret

/-- `Dependency::directLocationSources` (Dependency.cpp:1463-1500): local
sources, else the parent's; then a cleanup pass erases null-location
entries, replacing each (for a non-null key) by the parent chain's
re-resolution of that key. -/
def directLocationSources (fuel : Nat) : List Dependency → ValP → AMap
  | [], _ => []
  | d :: parents, target =>
    let ret := directLocalLocationSources d fuel target
    if ret = [] ∧ parents ≠ [] then directLocationSources fuel parents target
    else
      let kept := ret.filter (fun e => e.2 ≠ none)
      let nulls := ret.filter (fun e => e.2 = none)
      let tmp := nulls.foldl
        (fun t e =>
          if parents ≠ [] ∧ e.1 ≠ none then
            (directLocationSources fuel parents e.1).foldl
              (fun t2 x => ains t2 x.1 x.2) t
          else t) []
      tmp.foldl (fun r x => ains r x.1 x.2) kept

/-- `Dependency::recursivelyBuildLocationGraph` (Dependency.cpp:1502-1525).
The visited-ancestor set `parentTargets` is passed by value in the C++ and
is threaded through the fold accordingly.  `fuel` bounds the recursion
depth along value chains. -/
def recursivelyBuildLocationGraph (dsFuel : Nat) (chain : List Dependency) :
    Nat → LocationGraph → ValP → LocP → List LocP → LocationGraph
  | 0, g, _, _, _ => g
  | fuel + 1, g, source, target, parentTargets =>
    match source with
    | none => g
    | some _ =>
      let sourceEdges := directLocationSources dsFuel chain source
      (sourceEdges.foldl
        (fun st e =>
          if e.2 ≠ target ∧ e.2 ∉ st.2 then
            let g' := addNewEdge st.1 e.2 target
            let pts' := setIns st.2 target
            (recursivelyBuildLocationGraph dsFuel chain fuel g' e.1 e.2 pts',
             pts')
          else st)
        (g, parentTargets)).1

/-- `Dependency::buildLocationGraph` (Dependency.cpp:1527-1541). -/
def buildLocationGraph (fuel : Nat) (chain : List Dependency)
    (g : LocationGraph) (target : ValP) : LocationGraph :=
  (directLocationSources fuel chain target).foldl
    (fun g e =>
      recursivelyBuildLocationGraph fuel chain fuel (addNewSink g e.2) e.1 e.2
        [])
    g

/-- `Dependency::computeCoreLocations` (Dependency.cpp:1408-1421): insert
the graph's current sink locations into this frame's core-location set;
if a parent exists, strip this frame's own locations from the sink
frontier and recurse into the parent.  The chain is the frame list (head
first); the updated frames are returned. -/
def computeCoreLocations (fuel : Nat) :
    LocationGraph → List Dependency → List Dependency
  | _, [] => []
  | g, d :: parents =>
    let d' :=
      { d with coreLocations := setInsAll d.coreLocations (getSinkLocations g) }
    match parents with
    | [] => [d']
    | _ :: _ =>
      d' ::
        computeCoreLocations fuel
          (consumeSinksWithLocations fuel g d.versionedLocationsList) parents

/-- Reachability by following parent links for `k` or fewer steps, used to
state the acyclicity claim about the location graph. -/
def parentReach (g : LocationGraph) : Nat → Nat → Nat → Bool
  | 0, _, _ => false
  | k + 1, i, j =>
    match g.allNodes[i]? with
    | some n => n.parents.any (fun p => p == j || parentReach g k p j)
    | none => false

/-! ### Memory-location offset derivation (`MemoryLocation::MemoryLocation`) -/

/-- The fragment of the symbolic-expression type used by the
memory-location model: literal constants (`ConstantExpr`), addition
nodes (`AddExpr`), opaque symbolic leaves, and the null `ref<Expr>`. -/
inductive LExpr where
  | constE (v : Nat)
  | addE (l r : LExpr)
  | symE (id : Nat)
  | nullE
deriving DecidableEq

/-- The fields of `MemoryLocation`: core flag, allocation site, address
expression and offset expression (the primary constructor is in the
missing header; per the spec (§3) it fills all four fields). -/
structure MemLoc where
  core : Bool
  site : Nat
  address : LExpr
  offset : LExpr
deriving DecidableEq

/-- The derived-offset constructor `MemoryLocation::MemoryLocation(loc,
_offset)` (Dependency.cpp:155-168).  The member-initializer list copies
`core`, `site` and `address`; the member `offset` is a default-constructed
(null) `ref<Expr>` when the body runs.  If both `loc->offset` and
`_offset` are literal constants the zero-extended 64-bit sum is folded;
otherwise the body executes `offset = AddExpr::create(offset, _offset)`,
whose left operand is the still-null member `offset` — not `loc->offset`.
The null left operand is modelled as `LExpr.nullE` (at run time
`AddExpr::create` dereferences it). -/
def deriveMemoryLocation (loc : MemLoc) (xoffset : LExpr) : MemLoc :=
  let memberOffset := LExpr.nullE
  let newOffset :=
    match loc.offset, xoffset with
    | LExpr.constE a, LExpr.constE b => LExpr.constE ((a + b) % 2 ^ 64)
    | _, _ => LExpr.addE memberOffset xoffset
  { core := loc.core, site := loc.site, address := loc.address,
    offset := newOffset }

/-! ### Call-argument binding (`populateArgumentValuesList` /
`bindCallArguments`) -/

/-- The versioned value bound for one call-site argument in
`populateArgumentValuesList` (Dependency.cpp:764-775): the argument's
latest value if one exists, otherwise a fresh `VersionedValue`. -/
def argBound (latest : Nat → Option Nat) (freshVal : Nat → Nat) (a : Nat) :
    ValP :=
  match latest a with
  | some v => some v
  | none => some (freshVal a)

/-- `Dependency::populateArgumentValuesList` (Dependency.cpp:759-778):
iterate the call-site arguments from last to first, pushing each
argument's bound value (`latest`, else a fresh value) onto the list. -/
def populateArgumentValuesList (latest : Nat → Option Nat)
    (freshVal : Nat → Nat) (actuals : List Nat) : List ValP :=
  actuals.foldl
    (fun acc a =>
      (match latest a with
       | some v => some v
       | none => some (freshVal a)) :: acc) []

/-- The loop of `Dependency::bindCallArguments` (Dependency.cpp:1346-1358):
iterate the callee's formal parameters in declared order; for each one,
if the argument list's back is non-null record a flow edge from it into a
fresh version of the formal, then pop the back.  An edge is the pair
(bound argument value, formal parameter). -/
def bindLoop : List Nat → List ValP → List (ValP × Nat)
  | [], _ => []
  | p :: ps, argList =>
    match argList.getLast? with
    | some v => (if v ≠ none then [(v, p)] else []) ++ bindLoop ps argList.dropLast
    | none => bindLoop ps argList

/-- `Dependency::bindCallArguments` (Dependency.cpp:1331-1359) for an
identified callee: populate the argument-values list, then bind it to the
formal parameters. -/
def bindCallArguments (formals : List Nat) (latest : Nat → Option Nat)
    (freshVal : Nat → Nat) (actuals : List Nat) : List (ValP × Nat) :=
  bindLoop formals (populateArgumentValuesList latest freshVal actuals)

/-! ### Shadow substitution (`ShadowArray`) -/

/-- A (possibly null) `const Array *`. -/
abbrev ArrP := Option Nat

/-- The process-wide `ShadowArray::shadowArray` map
(Dependency.cpp:34). -/
abbrev SMap := List (ArrP × ArrP)

/-- The binary expression kinds handled by the big case of
`getShadowExpression` (Dependency.cpp:112-141); all are rebuilt
structure-preservingly by `createBinaryOfSameKind`. -/
inductive BinOp where
  | concat | add | sub | mul | udiv | sdiv | urem | srem
  | land | lor | lxor | shl | lshr | ashr
  | eq | ne | ult | ule | ugt | uge | slt | sle | sgt | sge
deriving DecidableEq

mutual
/-- The symbolic-expression tree over the node kinds handled by
`getShadowExpression`: reads (with their update history), constants,
select, extract, casts, the binary family, and the not-optimized
wrapper.  The spec (§6) treats node construction as a structure-preserving
factory of the external expression library. -/
inductive SExpr where
  | readE (root : ArrP) (updates : UpdList) (index : SExpr)
  | constE (v : Nat)
  | selectE (c t f : SExpr)
  | extractE (e : SExpr) (off w : Nat)
  | zextE (e : SExpr) (w : Nat)
  | sextE (e : SExpr) (w : Nat)
  | binE (op : BinOp) (l r : SExpr)
  | notOptimizedE (e : SExpr)
deriving DecidableEq
/-- An update list (`UpdateNode` chain): head node first, each holding the
next pointer and the written index/value expressions. -/
inductive UpdList where
  | nil
  | node (next : UpdList) (index value : SExpr)
deriving DecidableEq
end

/-- The state threaded through `getShadowExpression`: the process-wide
shadow map (mutable through `operator[]`) and the caller-supplied
`replacements` set. -/
structure ShadowState where
  smap : SMap
  reps : List ArrP
deriving DecidableEq

/-- `shadowArray[key]` (`std::map::operator[]`): the mapped value if the
key is present; otherwise a value-initialized (null) entry is inserted
and returned. -/
def mapIndexOp (m : SMap) (k : ArrP) : ArrP × SMap :=
  match alookup m k with
  | some v => (v, m)
  | none => (none, m ++ [(k, none)])

mutual
/-- `ShadowArray::getShadowExpression` (Dependency.cpp:62-151).  The C++
leaves the evaluation order of sibling recursive calls unspecified; they
are threaded left to right here, which fixes only the insertion order
inside the two set-like outputs, not their contents. -/
def getShadowExpression : SExpr → ShadowState → SExpr × ShadowState
  | SExpr.readE root upd idx, s =>
    let rm := mapIndexOp s.smap root
    let s1 : ShadowState := ⟨rm.2, setIns s.reps rm.1⟩
    let us := getShadowUpdate upd s1
    let ix := getShadowExpression idx us.2
    (SExpr.readE rm.1 us.1 ix.1, ix.2)
  | SExpr.constE v, s => (SExpr.constE v, s)
  | SExpr.selectE c t f, s =>
    let cs := getShadowExpression c s
    let ts := getShadowExpression t cs.2
    let fs := getShadowExpression f ts.2
    (SExpr.selectE cs.1 ts.1 fs.1, fs.2)
  | SExpr.extractE e off w, s =>
    let es := getShadowExpression e s
    (SExpr.extractE es.1 off w, es.2)
  | SExpr.zextE e w, s =>
    let es := getShadowExpression e s
    (SExpr.zextE es.1 w, es.2)
  | SExpr.sextE e w, s =>
    let es := getShadowExpression e s
    (SExpr.sextE es.1 w, es.2)
  | SExpr.binE op l r, s =>
    let ls := getShadowExpression l s
    let rs := getShadowExpression r ls.2
    (SExpr.binE op ls.1 rs.1, rs.2)
  | SExpr.notOptimizedE e, s =>
    let es := getShadowExpression e s
    (SExpr.notOptimizedE es.1, es.2)
/-- `ShadowArray::getShadowUpdate` (Dependency.cpp:36-45): rebuild the
update chain with index and value expressions recursively shadowed. -/
def getShadowUpdate : UpdList → ShadowState → UpdList × ShadowState
  | UpdList.nil, s => (UpdList.nil, s)
  | UpdList.node nx i v, s =>
    let ns := getShadowUpdate nx s
    let is2 := getShadowExpression i ns.2
    let vs := getShadowExpression v is2.2
    (UpdList.node ns.1 is2.1 vs.1, vs.2)
end

/-- The shadow array registered for `r`, null when unregistered
(read-only counterpart of `operator[]`, used by the spec-side
description below). -/
def specLookup (m : SMap) (r : ArrP) : ArrP :=
  match alookup m r with
  | some v => v
  | none => none

mutual
/-- Modelled from the spec: the result `getShadowExpression` is claimed
to produce — a tree structurally identical to the input except that every
read node's array (also inside update histories) is replaced by its
registered shadow, constants unchanged.  Used as the refinement
comparison target for the code-side `getShadowExpression`. -/
def specShadow (m : SMap) : SExpr → SExpr
  | SExpr.readE root upd idx =>
    SExpr.readE (specLookup m root) (specShadowU m upd) (specShadow m idx)
  | SExpr.constE v => SExpr.constE v
  | SExpr.selectE c t f =>
    SExpr.selectE (specShadow m c) (specShadow m t) (specShadow m f)
  | SExpr.extractE e off w => SExpr.extractE (specShadow m e) off w
  | SExpr.zextE e w => SExpr.zextE (specShadow m e) w
  | SExpr.sextE e w => SExpr.sextE (specShadow m e) w
  | SExpr.binE op l r => SExpr.binE op (specShadow m l) (specShadow m r)
  | SExpr.notOptimizedE e => SExpr.notOptimizedE (specShadow m e)
/-- Modelled from the spec: the shadow image of an update history. -/
def specShadowU (m : SMap) : UpdList → UpdList
  | UpdList.nil => UpdList.nil
  | UpdList.node nx i v =>
    UpdList.node (specShadowU m nx) (specShadow m i) (specShadow m v)
end

mutual
/-- The arrays read by an expression, in the order `getShadowExpression`
encounters them (including reads inside update histories). -/
def readRoots : SExpr → List ArrP
  | SExpr.readE root upd idx => root :: (readRootsU upd ++ readRoots idx)
  | SExpr.constE _ => []
  | SExpr.selectE c t f => readRoots c ++ (readRoots t ++ readRoots f)
  | SExpr.extractE e _ _ => readRoots e
  | SExpr.zextE e _ => readRoots e
  | SExpr.sextE e _ => readRoots e
  | SExpr.binE _ l r => readRoots l ++ readRoots r
  | SExpr.notOptimizedE e => readRoots e
/-- The arrays read inside an update history. -/
def readRootsU : UpdList → List ArrP
  | UpdList.nil => []
  | UpdList.node nx i v => readRootsU nx ++ (readRoots i ++ readRoots v)
end

/-! ### Concrete inputs used by the closed theorems and witnesses -/

/-- The graph built by `addNewEdge(A,B); addNewEdge(B,C); addNewEdge(C,A)`
with locations `A = some 0`, `B = some 1`, `C = some 2`. -/
def cycleGraph : LocationGraph :=
  addNewEdge (addNewEdge (addNewEdge ⟨[], []⟩ (some 0) (some 1)) (some 1) (some 2))
    (some 2) (some 0)

/-- A child frame whose value `some 1` has a via-location flow edge to the
parent-owned location `some 10` (such edges are recorded by
`buildLoadDependency` when a load resolves to an ancestor's location). -/
def coreChild : Dependency := ⟨[], [], [], [], [(some 1, [(some 2, some 10)])]⟩

/-- The parent frame owning location `some 10`. -/
def coreParent : Dependency := ⟨[some 10], [], [], [], []⟩

/-- The two-frame chain (child first). -/
def coreChain : List Dependency := [coreChild, coreParent]

/-- The location graph the child builds for its core value `some 1`. -/
def coreGraph : LocationGraph := buildLocationGraph 8 coreChain ⟨[], []⟩ (some 1)

/-- The frame chain after `computeCoreLocations` on that graph. -/
def coreAfter : List Dependency := computeCoreLocations 8 coreGraph coreChain

/-- A frame with the flow chain `some 2 ← some 0 ← some 1` (value-only
edges), listed in `std::map` key order. -/
def flowFrame : Dependency :=
  ⟨[], [], [], [], [(some 0, [(some 1, none)]), (some 2, [(some 0, none)])]⟩

/-- A shadow-substitution input: an addition over a read (with one update
node) from array `some 1` and a constant. -/
def shadowExprW : SExpr :=
  SExpr.binE BinOp.add
    (SExpr.readE (some 1) (UpdList.node UpdList.nil (SExpr.constE 0) (SExpr.constE 9))
      (SExpr.constE 0))
    (SExpr.constE 7)

/-- A shadow map registering `some 1 ↦ some 2`. -/
def shadowMapW : SMap := [(some 1, some 2)]

/-- A graph holding a non-sink node for location `some 5` (index 0) and a
single sink wrapping `some 7` (index 1). -/
def sinkFreeGraph : LocationGraph := ⟨[⟨some 5, 1, []⟩, ⟨some 7, 0, [0]⟩], [1]⟩

/-! ## Helper lemmas -/

theorem mem_setIns {α : Type} [DecidableEq α] (s : List α) (y x : α) :
    x ∈ setIns s y ↔ x ∈ s ∨ x = y := by
  unfold setIns
  by_cases h : y ∈ s
  · simp only [if_pos h]
    constructor
    · exact Or.inl
    · rintro (hx | rfl)
      · exact hx
      · exact h
  · simp [if_neg h]

theorem mem_setInsAll {α : Type} [DecidableEq α] (xs s : List α) (x : α) :
    x ∈ setInsAll s xs ↔ x ∈ s ∨ x ∈ xs := by
  induction xs generalizing s with
  | nil => simp [setInsAll]
  | cons y ys ih =>
    have hstep : setInsAll s (y :: ys) = setInsAll (setIns s y) ys := rfl
    rw [hstep, ih, mem_setIns]
    simp only [List.mem_cons]
    tauto

theorem setInsAll_append {α : Type} [DecidableEq α] (s xs ys : List α) :
    setInsAll s (xs ++ ys) = setInsAll (setInsAll s xs) ys :=
  List.foldl_append _ _ _ _

theorem alookup_aset_self {α β : Type} [DecidableEq α] (m : List (α × β))
    (k : α) (v : β) : alookup (aset m k v) k = some v := by
  induction m with
  | nil => simp [aset, alookup]
  | cons e rest ih =>
    obtain ⟨k0, v0⟩ := e
    by_cases h : k0 = k
    · subst h
      simp [aset, alookup]
    · simp [aset, alookup, h, ih]

theorem alookup_append_single {α β : Type} [DecidableEq α] (m : List (α × β))
    (k : α) (v : β) (h : alookup m k = none) :
    alookup (m ++ [(k, v)]) k = some v := by
  induction m with
  | nil => simp [alookup]
  | cons e rest ih =>
    obtain ⟨k0, v0⟩ := e
    by_cases hk : k0 = k
    · subst hk
      simp [alookup] at h
    · simp only [alookup, hk, if_false, List.cons_append] at h ⊢
      exact ih h

theorem alookup_eq_none_iff {α β : Type} [DecidableEq α] (m : List (α × β))
    (k : α) : alookup m k = none ↔ k ∉ akeys m := by
  induction m with
  | nil => simp [alookup, akeys]
  | cons e rest ih =>
    obtain ⟨k0, v0⟩ := e
    by_cases hk : k0 = k
    · subst hk
      simp [alookup, akeys]
    · simp [alookup, akeys, hk, ih, Ne.symm hk]

theorem akeys_aset_of_some {α β : Type} [DecidableEq α] (m : List (α × β))
    (k : α) (v w : β) (h : alookup m k = some w) :
    akeys (aset m k v) = akeys m := by
  induction m with
  | nil => simp [alookup] at h
  | cons e rest ih =>
    obtain ⟨k0, v0⟩ := e
    by_cases hk : k0 = k
    · subst hk
      simp [aset, akeys]
    · simp only [alookup, hk, if_false] at h
      have hrec := ih h
      simp only [aset, hk, if_false, akeys, List.map_cons] at hrec ⊢
      rw [hrec]

theorem alookup_updateStore_self (d : Dependency) (L : LocP) (V : ValP) :
    alookup (updateStore d L V).storesMap L = some V := by
  unfold updateStore
  cases h : alookup d.storesMap L with
  | none => simpa [h] using alookup_append_single d.storesMap L V h
  | some w => simpa [h] using alookup_aset_self d.storesMap L V

theorem akeys_updateStore_nodup (d : Dependency) (L : LocP) (V : ValP)
    (h : (akeys d.storesMap).Nodup) :
    (akeys (updateStore d L V).storesMap).Nodup := by
  unfold updateStore
  cases hl : alookup d.storesMap L with
  | none =>
    have hnot : L ∉ akeys d.storesMap := (alookup_eq_none_iff _ _).mp hl
    simp only [hl]
    have : akeys (d.storesMap ++ [(L, V)]) = akeys d.storesMap ++ [L] := by
      simp [akeys]
    rw [this, List.nodup_append]
    refine ⟨h, List.nodup_singleton L, ?_⟩
    intro a ha hb
    rw [List.mem_singleton] at hb
    subst hb
    exact hnot ha
  | some w =>
    simp only [hl]
    rw [akeys_aset_of_some d.storesMap L V w hl]
    exact h

/-! ## Claim theorems -/

/-- C1.  The claim states that the location graph stays acyclic and that
after building `A→B` and `B→C` the call `addNewEdge(C, A)` is rejected.
Evaluating the code on that very sequence shows the opposite: the parent
edge from `C` is added to `A`'s node (node 0's parent set becomes `[2]`,
node 2 wrapping `C`), and location `A`'s node reaches itself in three
parent steps. -/
theorem addNewEdge_cycle_formed :
    cycleGraph =
      ⟨[⟨some 0, 1, [2]⟩, ⟨some 1, 0, [0]⟩, ⟨some 2, 0, [1]⟩], [1, 2]⟩ ∧
    parentReach cycleGraph 3 0 0 = true := by
  constructor
  · decide
  · decide

/-- C3.  Evaluating the derived-offset constructor: with both offsets
literal the sum is folded (`5 + 3 = 8`); with a symbolic extra offset the
code builds `AddExpr::create(offset, _offset)` whose left operand is the
new object's own still-null `offset` member, not the base location's
offset `5` as the claim requires. -/
theorem deriveMemoryLocation_eval :
    (deriveMemoryLocation ⟨false, 0, LExpr.constE 0, LExpr.constE 5⟩
        (LExpr.constE 3)).offset = LExpr.constE 8 ∧
    (deriveMemoryLocation ⟨false, 0, LExpr.constE 0, LExpr.constE 5⟩
        (LExpr.symE 1)).offset = LExpr.addE LExpr.nullE (LExpr.symE 1) ∧
    LExpr.addE LExpr.nullE (LExpr.symE 1) ≠
      LExpr.addE (LExpr.constE 5) (LExpr.symE 1) := by
  refine ⟨?_, rfl, by decide⟩
  show LExpr.constE ((5 + 3) % 2 ^ 64) = LExpr.constE 8
  norm_num

/-- C4.  Two successive `updateStore` calls for the same location leave
exactly one entry, the second value; the store map keeps at most one
entry per location. -/
theorem updateStore_overwrite (d : Dependency) (rest : List Dependency)
    (L : LocP) (V1 V2 : ValP) (h : (akeys d.storesMap).Nodup) :
    stores (updateStore (updateStore d L V1) L V2 :: rest) L = [V2] ∧
    (akeys (updateStore (updateStore d L V1) L V2).storesMap).Nodup := by
  constructor
  · have hv := alookup_updateStore_self (updateStore d L V1) L V2
    simp [stores, hv]
  · exact akeys_updateStore_nodup _ L V2 (akeys_updateStore_nodup d L V1 h)

/-- Witness for C4 at a frame with one unrelated store entry. -/
theorem updateStore_overwrite_witness :
    (akeys (⟨[], [], [(some 9, some 4)], [], []⟩ : Dependency).storesMap).Nodup ∧
    (stores
        (updateStore
            (updateStore (⟨[], [], [(some 9, some 4)], [], []⟩ : Dependency)
              (some 3) (some 1))
          (some 3) (some 2) :: []) (some 3) = [some 2] ∧
      (akeys (updateStore
          (updateStore (⟨[], [], [(some 9, some 4)], [], []⟩ : Dependency)
            (some 3) (some 1))
        (some 3) (some 2)).storesMap).Nodup) :=
  ⟨by decide,
   updateStore_overwrite ⟨[], [], [(some 9, some 4)], [], []⟩ [] (some 3)
     (some 1) (some 2) (by decide)⟩

/-- C5.  The claim states `allFlowSources` returns a duplicate-free list.
On the flow chain `some 2 ← some 0 ← some 1` the returned vector is
`[0, 1, 2, 1, 2]`: the `std::sort`/`std::unique` pass never erases the
tail left behind by `std::unique` (Dependency.cpp:730, contradicting the
comment "Ensure there are no duplicates in the return"). -/
theorem allFlowSources_duplicates :
    allFlowSources 10 [flowFrame] (some 2) =
      [some 0, some 1, some 2, some 1, some 2] ∧
    ¬ (allFlowSources 10 [flowFrame] (some 2)).Nodup := by
  constructor
  · decide
  · decide

/-- C9.  The claim states `makeTabs(n)` is `n` eight-space units (`8n`
spaces).  The loop body `tabsString += appendTab(tabsString)` doubles the
string and adds one unit, so `makeTabs 2` is 24 spaces, not 16;
`appendTab` itself appends exactly one 8-space unit. -/
theorem makeTabs_exponential :
    makeTabs 2 = "                        " ∧
    appendTab "" = "        " ∧
    makeTabs 2 ≠ "                " := by
  refine ⟨rfl, rfl, by decide⟩

/-- C10 helper: the sink scan fails when no sink wraps the location. -/
theorem sinkScan_eq_none (g : LocationGraph) (L : LocP) (l : List Nat)
    (h : ∀ i ∈ l, nodeHasLoc g i L = false) : sinkScan g L l = none := by
  induction l with
  | nil => rfl
  | cons i rest ih =>
    have h1 := h i (List.mem_cons_self i rest)
    simp [sinkScan, h1, ih (fun j hj => h j (List.mem_cons_of_mem i hj))]

/-- C10.  When no current sink wraps `L`, `consumeSinkNode(L)` returns
before mutating anything: the graph (nodes, sinks, parent edges) is
unchanged, even if a non-sink node for `L` exists. -/
theorem consumeSinkNode_missing_sink_noop (g : LocationGraph) (L : LocP)
    (h : ∀ i ∈ g.sinks, nodeHasLoc g i L = false) :
    consumeSinkNode g L = g := by
  unfold consumeSinkNode
  rw [sinkScan_eq_none g L g.sinks h]

/-- Witness for C10 on a graph that owns a non-sink node for the probed
location `some 5`. -/
theorem consumeSinkNode_missing_sink_noop_witness :
    (∀ i ∈ sinkFreeGraph.sinks, nodeHasLoc sinkFreeGraph i (some 5) = false) ∧
    isVisited sinkFreeGraph (some 5) = true ∧
    consumeSinkNode sinkFreeGraph (some 5) = sinkFreeGraph :=
  ⟨by decide, by decide,
   consumeSinkNode_missing_sink_noop sinkFreeGraph (some 5) (by decide)⟩

/-- Folding cons over a list builds the reversed map: the shape of
`populateArgumentValuesList`'s last-to-first push loop. -/
theorem foldl_cons_reverse {α β : Type} (f : α → β) (l : List α)
    (acc : List β) :
    l.foldl (fun acc a => f a :: acc) acc = (l.map f).reverse ++ acc := by
  induction l generalizing acc with
  | nil => simp
  | cons x xs ih =>
    rw [List.foldl_cons, ih]
    simp

/-- The populated argument-values list is the reversed list of bound
argument values. -/
theorem populateArgumentValuesList_eq (latest : Nat → Option Nat)
    (freshVal : Nat → Nat) (actuals : List Nat) :
    populateArgumentValuesList latest freshVal actuals =
      (actuals.map (argBound latest freshVal)).reverse := by
  have hdef : populateArgumentValuesList latest freshVal actuals =
      actuals.foldl (fun acc a => argBound latest freshVal a :: acc) [] := rfl
  rw [hdef, foldl_cons_reverse, List.append_nil]

/-- Consuming a reversed list from its back while walking the formals in
order pairs each formal with the positionally corresponding element. -/
theorem bindLoop_reverse (ps : List Nat) (xs : List ValP)
    (hlen : xs.length = ps.length) (hnn : ∀ x ∈ xs, x ≠ none) :
    bindLoop ps xs.reverse = xs.zip ps := by
  induction ps generalizing xs with
  | nil =>
    cases xs with
    | nil => rfl
    | cons y ys => simp at hlen
  | cons p ps ih =>
    cases xs with
    | nil => simp at hlen
    | cons y ys =>
      have hy : y ≠ none := hnn y (List.mem_cons_self y ys)
      have hrev : (y :: ys).reverse = ys.reverse ++ [y] := by simp
      rw [hrev]
      simp only [bindLoop, List.getLast?_concat, List.dropLast_concat]
      rw [if_pos hy,
        ih ys (by simpa using hlen) (fun x hx => hnn x (List.mem_cons_of_mem y hx))]
      simp [List.zip_cons_cons]

/-- C6.  `bindCallArguments` pairs the fresh version of each formal
parameter with the versioned value bound for the positionally
corresponding call-site argument: the recorded flow edges are exactly the
zip of the bound actuals with the formals, in order. -/
theorem bindCallArguments_positional (latest : Nat → Option Nat)
    (freshVal : Nat → Nat) (formals actuals : List Nat)
    (h : actuals.length = formals.length) :
    bindCallArguments formals latest freshVal actuals =
      (actuals.map (argBound latest freshVal)).zip formals := by
  unfold bindCallArguments
  rw [populateArgumentValuesList_eq]
  refine bindLoop_reverse formals _ (by simpa using h) ?_
  intro x hx
  obtain ⟨a, _, rfl⟩ := List.mem_map.mp hx
  unfold argBound
  cases latest a <;> simp

/-- Witness for C6: a two-argument call where the first actual resolves
to an existing versioned value and the second is synthesized fresh. -/
theorem bindCallArguments_positional_witness :
    ([7, 8] : List Nat).length = ([0, 1] : List Nat).length ∧
    bindCallArguments [0, 1] (fun a => if a = 7 then some 70 else none)
        (fun a => a + 100) [7, 8] =
      ([7, 8].map
          (argBound (fun a => if a = 7 then some 70 else none)
            (fun a => a + 100))).zip [0, 1] :=
  ⟨by decide,
   bindCallArguments_positional (fun a => if a = 7 then some 70 else none)
     (fun a => a + 100) [0, 1] [7, 8] (by decide)⟩

/-- The sink-location fold collects exactly the locations of the listed
sink node indices. -/
theorem mem_sinkLocFold (g : LocationGraph) (l : List Nat) (acc : List LocP)
    (x : LocP) :
    (x ∈ l.foldl
        (fun acc i =>
          match g.allNodes[i]? with
          | some n => setIns acc n.loc
          | none => acc) acc) ↔
      x ∈ acc ∨ ∃ i, i ∈ l ∧ nodeHasLoc g i x = true := by
  induction l generalizing acc with
  | nil => simp
  | cons i rest ih =>
    rw [List.foldl_cons, ih]
    cases hg : g.allNodes[i]? with
    | none =>
      simp only [hg]
      constructor
      · rintro (h | ⟨j, hj, hjl⟩)
        · exact Or.inl h
        · exact Or.inr ⟨j, List.mem_cons_of_mem i hj, hjl⟩
      · rintro (h | ⟨j, hj, hjl⟩)
        · exact Or.inl h
        · rcases List.mem_cons.mp hj with rfl | hj'
          · simp [nodeHasLoc, hg] at hjl
          · exact Or.inr ⟨j, hj', hjl⟩
    | some n =>
      simp only [hg]
      rw [mem_setIns]
      constructor
      · rintro ((h | rfl) | ⟨j, hj, hjl⟩)
        · exact Or.inl h
        · exact Or.inr ⟨i, List.mem_cons_self i rest, by simp [nodeHasLoc, hg]⟩
        · exact Or.inr ⟨j, List.mem_cons_of_mem i hj, hjl⟩
      · rintro (h | ⟨j, hj, hjl⟩)
        · exact Or.inl (Or.inl h)
        · rcases List.mem_cons.mp hj with rfl | hj'
          · have hx : n.loc = x := by simpa [nodeHasLoc, hg] using hjl
            exact Or.inl (Or.inr hx.symm)
          · exact Or.inr ⟨j, hj', hjl⟩

/-- Membership characterization of `getSinkLocations`. -/
theorem mem_getSinkLocations (g : LocationGraph) (x : LocP) :
    x ∈ getSinkLocations g ↔ ∃ i, i ∈ g.sinks ∧ nodeHasLoc g i x = true := by
  have h := mem_sinkLocFold g g.sinks [] x
  simpa [getSinkLocations] using h

/-- Everything `getSinksWithLocations` returns is in the supplied list. -/
theorem mem_getSinksWithLocations_sub (g : LocationGraph) (L : List LocP) :
    ∀ x ∈ getSinksWithLocations g L, x ∈ L := by
  have hfold : ∀ (l : List Nat) (acc : List LocP), (∀ x ∈ acc, x ∈ L) →
      ∀ x ∈ l.foldl
        (fun acc i =>
          match g.allNodes[i]? with
          | some n => if n.loc ∈ L then setIns acc n.loc else acc
          | none => acc) acc, x ∈ L := by
    intro l
    induction l with
    | nil => intro acc hacc x hx; exact hacc x hx
    | cons i rest ih =>
      intro acc hacc x hx
      rw [List.foldl_cons] at hx
      refine ih _ ?_ x hx
      cases hg : g.allNodes[i]? with
      | none => simpa [hg] using hacc
      | some n =>
        by_cases hl : n.loc ∈ L
        · simp only [hg, if_pos hl]
          intro y hy
          rcases (mem_setIns acc n.loc y).mp hy with hy' | rfl
          · exact hacc y hy'
          · exact hl
        · simpa [hg, hl] using hacc
  exact hfold g.sinks [] (by intro x hx; cases hx)

/-- A successful sink scan returns a node wrapping the probed location. -/
theorem sinkScan_some_loc (g : LocationGraph) (loc : LocP) :
    ∀ (l : List Nat) (i : Nat) (rest : List Nat),
      sinkScan g loc l = some (i, rest) → nodeHasLoc g i loc = true := by
  intro l
  induction l with
  | nil => intro i rest h; simp [sinkScan] at h
  | cons j js ih =>
    intro i rest h
    by_cases hj : nodeHasLoc g j loc = true
    · simp only [sinkScan, if_pos hj, Option.some.injEq, Prod.mk.injEq] at h
      obtain ⟨rfl, -⟩ := h
      exact hj
    · simp only [sinkScan, if_neg hj] at h
      cases hscan : sinkScan g loc js with
      | none => simp [hscan] at h
      | some pr =>
        obtain ⟨j', rest'⟩ := pr
        simp only [hscan, Option.some.injEq, Prod.mk.injEq] at h
        obtain ⟨rfl, -⟩ := h
        exact ih _ _ hscan

/-- A successful sink scan erases only the found index: every different
listed index survives. -/
theorem sinkScan_some_mem (g : LocationGraph) (loc : LocP) :
    ∀ (l : List Nat) (i : Nat) (rest : List Nat),
      sinkScan g loc l = some (i, rest) →
      ∀ j ∈ l, j ≠ i → j ∈ rest := by
  intro l
  induction l with
  | nil => intro i rest h; simp [sinkScan] at h
  | cons k ks ih =>
    intro i rest h j hj hji
    by_cases hk : nodeHasLoc g k loc = true
    · simp only [sinkScan, if_pos hk, Option.some.injEq, Prod.mk.injEq] at h
      obtain ⟨rfl, rfl⟩ := h
      rcases List.mem_cons.mp hj with rfl | hj'
      · exact absurd rfl hji
      · exact hj'
    · simp only [sinkScan, if_neg hk] at h
      cases hscan : sinkScan g loc ks with
      | none => simp [hscan] at h
      | some pr =>
        obtain ⟨j', rest'⟩ := pr
        simp only [hscan, Option.some.injEq, Prod.mk.injEq] at h
        obtain ⟨rfl, rfl⟩ := h
        rcases List.mem_cons.mp hj with rfl | hj'
        · exact List.mem_cons_self j rest'
        · exact List.mem_cons_of_mem k (ih _ _ hscan j hj' hji)

/-- A node index wraps at most one location. -/
theorem nodeHasLoc_eq (g : LocationGraph) (i : Nat) (a b : LocP)
    (ha : nodeHasLoc g i a = true) (hb : nodeHasLoc g i b = true) : a = b := by
  unfold nodeHasLoc at ha hb
  cases hg : g.allNodes[i]? with
  | none =>
    rw [hg] at ha
    cases ha
  | some n =>
    rw [hg] at ha hb
    have ha' : n.loc = a := by simpa using ha
    have hb' : n.loc = b := by simpa using hb
    rw [← ha', hb']

/-- Consuming the sink for a different location keeps `x` in the sink
frontier. -/
theorem consumeSinkNode_preserves_sinkLoc (g : LocationGraph) (loc x : LocP)
    (hne : x ≠ loc) (h : x ∈ getSinkLocations g) :
    x ∈ getSinkLocations (consumeSinkNode g loc) := by
  obtain ⟨j, hj, hjl⟩ := (mem_getSinkLocations g x).mp h
  unfold consumeSinkNode
  cases hscan : sinkScan g loc g.sinks with
  | none => exact h
  | some pr =>
    obtain ⟨i, rest⟩ := pr
    have hil := sinkScan_some_loc g loc g.sinks i rest hscan
    have hji : j ≠ i := by
      intro heq
      exact hne (nodeHasLoc_eq g i x loc (heq ▸ hjl) hil)
    have hjrest := sinkScan_some_mem g loc g.sinks i rest hscan j hj hji
    refine (mem_getSinkLocations _ x).mpr ⟨j, ?_, ?_⟩
    · exact (mem_setInsAll _ _ _).mpr (Or.inl hjrest)
    · exact hjl

/-- Folding `consumeSinkNode` over locations all different from `x`
preserves `x`'s sink membership. -/
theorem foldConsume_preserves_sinkLoc (locs : List LocP) (x : LocP)
    (hx : x ∉ locs) :
    ∀ (ls : List LocP), (∀ y ∈ ls, y ∈ locs) →
      ∀ (g : LocationGraph), x ∈ getSinkLocations g →
        x ∈ getSinkLocations (ls.foldl consumeSinkNode g) := by
  intro ls
  induction ls with
  | nil => intro _ g h; exact h
  | cons y ys ih =>
    intro hsub g h
    rw [List.foldl_cons]
    refine ih (fun z hz => hsub z (List.mem_cons_of_mem y hz)) _ ?_
    refine consumeSinkNode_preserves_sinkLoc g y x ?_ h
    intro heq
    exact hx (heq ▸ hsub y (List.mem_cons_self y ys))

/-- The sink-consumption fixpoint never removes a sink location outside
the stripped list. -/
theorem consumeSinks_preserves_sinkLoc (fuel : Nat) :
    ∀ (g : LocationGraph) (locs : List LocP) (x : LocP), x ∉ locs →
      x ∈ getSinkLocations g →
      x ∈ getSinkLocations (consumeSinksWithLocations fuel g locs) := by
  induction fuel with
  | zero => intro g locs x _ h; exact h
  | succ n ih =>
    intro g locs x hx h
    have hstep : consumeSinksWithLocations (n + 1) g locs =
        if getSinksWithLocations g locs = [] then g
        else
          consumeSinksWithLocations n
            ((getSinksWithLocations g locs).foldl consumeSinkNode g) locs := rfl
    rw [hstep]
    by_cases hempty : getSinksWithLocations g locs = []
    · rw [if_pos hempty]
      exact h
    · rw [if_neg hempty]
      exact ih _ locs x hx
        (foldConsume_preserves_sinkLoc locs x hx _
          (mem_getSinksWithLocations_sub g locs) g h)

/-- C2 counterexample.  In a two-frame chain whose child value `some 1`
resolves through its flow sources to the parent-owned location `some 10`
(shown by the first conjunct), `computeCoreLocations` invoked from the
child records that location in the parent's core-location set AND in the
child's — the claim asserts the child's set does not receive it. -/
theorem computeCoreLocations_child_claims_parent_location :
    directLocationSources 8 coreChain (some 1) = [(some 2, some 10)] ∧
    some 10 ∈ coreParent.versionedLocationsList ∧
    some 10 ∉ coreChild.versionedLocationsList ∧
    coreAfter =
      [{ coreChild with coreLocations := [some 10] },
       { coreParent with coreLocations := [some 10] }] := by
  refine ⟨by decide, by decide, by decide, by decide⟩

/-- C2 (amended).  A location in the graph's sink frontier that the child
frame does not own ends up in the parent frame's core-location set — and
also in the child frame's, because each frame first records every current
sink location before stripping its own locations and recursing. -/
theorem computeCoreLocations_parent_location_in_both (fuel : Nat)
    (g : LocationGraph) (child par : Dependency) (x : LocP)
    (h1 : x ∈ getSinkLocations g) (h2 : x ∉ child.versionedLocationsList) :
    ∃ child' par',
      computeCoreLocations fuel g [child, par] = [child', par'] ∧
      x ∈ child'.coreLocations ∧ x ∈ par'.coreLocations := by
  refine ⟨_, _, rfl, ?_, ?_⟩
  · exact (mem_setInsAll _ _ _).mpr (Or.inr h1)
  · exact (mem_setInsAll _ _ _).mpr
      (Or.inr (consumeSinks_preserves_sinkLoc fuel g
        child.versionedLocationsList x h2 h1))

/-- Witness for the amended C2 on the concrete two-frame chain. -/
theorem computeCoreLocations_parent_location_in_both_witness :
    some 10 ∈ getSinkLocations coreGraph ∧
    some 10 ∉ coreChild.versionedLocationsList ∧
    (∃ child' par',
      computeCoreLocations 8 coreGraph [coreChild, coreParent] =
        [child', par'] ∧
      some 10 ∈ child'.coreLocations ∧ some 10 ∈ par'.coreLocations) :=
  ⟨by decide, by decide,
   computeCoreLocations_parent_location_in_both 8 coreGraph coreChild
     coreParent (some 10) (by decide) (by decide)⟩

/-- Unfolding step for `setInsAll` on a cons cell. -/
theorem setInsAll_cons {α : Type} [DecidableEq α] (s : List α) (x : α)
    (xs : List α) : setInsAll s (x :: xs) = setInsAll (setIns s x) xs := rfl

mutual
/-- With every read array registered, `getShadowExpression` returns the
spec-side shadow image, leaves the shadow map untouched, and extends the
replacements set with exactly the shadows of the arrays read. -/
theorem getShadowExpression_spec (e : SExpr) (s : ShadowState)
    (h : ∀ r ∈ readRoots e, (alookup s.smap r).isSome) :
    getShadowExpression e s =
      (specShadow s.smap e,
       ⟨s.smap, setInsAll s.reps ((readRoots e).map (specLookup s.smap))⟩) := by
  cases e with
  | readE root upd idx =>
    obtain ⟨v, hv⟩ := Option.isSome_iff_exists.mp (h root (by simp [readRoots]))
    have hu := getShadowUpdate_spec upd ⟨s.smap, setIns s.reps v⟩
      (fun r hr => h r (by simp [readRoots, hr]))
    have hi := getShadowExpression_spec idx
      ⟨s.smap, setInsAll (setIns s.reps v)
        ((readRootsU upd).map (specLookup s.smap))⟩
      (fun r hr => h r (by simp [readRoots, hr]))
    simp only [getShadowExpression, mapIndexOp, hv, hu, hi, specShadow,
      readRoots, specLookup, List.map_cons, List.map_append, setInsAll_cons,
      setInsAll_append]
  | constE v =>
    simp [getShadowExpression, specShadow, readRoots, setInsAll]
  | selectE c t f =>
    have hc := getShadowExpression_spec c s
      (fun r hr => h r (by simp [readRoots, hr]))
    have ht := getShadowExpression_spec t
      ⟨s.smap, setInsAll s.reps ((readRoots c).map (specLookup s.smap))⟩
      (fun r hr => h r (by simp [readRoots, hr]))
    have hf := getShadowExpression_spec f
      ⟨s.smap, setInsAll (setInsAll s.reps
          ((readRoots c).map (specLookup s.smap)))
        ((readRoots t).map (specLookup s.smap))⟩
      (fun r hr => h r (by simp [readRoots, hr]))
    simp only [getShadowExpression, hc, ht, hf, specShadow, readRoots,
      List.map_append, setInsAll_append]
  | extractE e off w =>
    have he := getShadowExpression_spec e s
      (fun r hr => h r (by simp [readRoots, hr]))
    simp only [getShadowExpression, he, specShadow, readRoots]
  | zextE e w =>
    have he := getShadowExpression_spec e s
      (fun r hr => h r (by simp [readRoots, hr]))
    simp only [getShadowExpression, he, specShadow, readRoots]
  | sextE e w =>
    have he := getShadowExpression_spec e s
      (fun r hr => h r (by simp [readRoots, hr]))
    simp only [getShadowExpression, he, specShadow, readRoots]
  | binE op l r =>
    have hl := getShadowExpression_spec l s
      (fun r' hr' => h r' (by simp [readRoots, hr']))
    have hr2 := getShadowExpression_spec r
      ⟨s.smap, setInsAll s.reps ((readRoots l).map (specLookup s.smap))⟩
      (fun r' hr' => h r' (by simp [readRoots, hr']))
    simp only [getShadowExpression, hl, hr2, specShadow, readRoots,
      List.map_append, setInsAll_append]
  | notOptimizedE e =>
    have he := getShadowExpression_spec e s
      (fun r hr => h r (by simp [readRoots, hr]))
    simp only [getShadowExpression, he, specShadow, readRoots]
/-- Companion of `getShadowExpression_spec` for update histories. -/
theorem getShadowUpdate_spec (u : UpdList) (s : ShadowState)
    (h : ∀ r ∈ readRootsU u, (alookup s.smap r).isSome) :
    getShadowUpdate u s =
      (specShadowU s.smap u,
       ⟨s.smap, setInsAll s.reps ((readRootsU u).map (specLookup s.smap))⟩) := by
  cases u with
  | nil => simp [getShadowUpdate, specShadowU, readRootsU, setInsAll]
  | node nx i v =>
    have hn := getShadowUpdate_spec nx s
      (fun r hr => h r (by simp [readRootsU, hr]))
    have hi := getShadowExpression_spec i
      ⟨s.smap, setInsAll s.reps ((readRootsU nx).map (specLookup s.smap))⟩
      (fun r hr => h r (by simp [readRootsU, hr]))
    have hv := getShadowExpression_spec v
      ⟨s.smap, setInsAll (setInsAll s.reps
          ((readRootsU nx).map (specLookup s.smap)))
        ((readRoots i).map (specLookup s.smap))⟩
      (fun r hr => h r (by simp [readRootsU, hr]))
    simp only [getShadowUpdate, hn, hi, hv, specShadowU, readRootsU,
      List.map_append, setInsAll_append]
end

/-- C7.  With a fully registered shadow map and an initially empty
replacements set, `getShadowExpression` produces exactly the spec-side
shadow image (structurally identical tree, every read rebuilt against the
registered shadow, constants unchanged), and the replacements set
afterwards holds exactly the registered shadows of the arrays actually
read. -/
theorem getShadowExpression_rewrites_reads (e : SExpr) (m : SMap)
    (h : ∀ r ∈ readRoots e, (alookup m r).isSome) :
    (getShadowExpression e ⟨m, []⟩).1 = specShadow m e ∧
    (∀ x, x ∈ (getShadowExpression e ⟨m, []⟩).2.reps ↔
      x ∈ (readRoots e).map (specLookup m)) ∧
    (∀ r ∈ readRoots e, specLookup m r ∈ (getShadowExpression e ⟨m, []⟩).2.reps) := by
  have H := getShadowExpression_spec e ⟨m, []⟩ h
  refine ⟨?_, ?_, ?_⟩
  · rw [H]
  · intro x
    rw [H]
    show x ∈ setInsAll [] ((readRoots e).map (specLookup m)) ↔ _
    rw [mem_setInsAll]
    simp
  · intro r hr
    rw [H]
    show specLookup m r ∈ setInsAll [] ((readRoots e).map (specLookup m))
    exact (mem_setInsAll _ _ _).mpr (Or.inr (List.mem_map_of_mem _ hr))

/-- Witness for C7 on a concrete read-plus-constant expression under the
map registering `some 1 ↦ some 2`. -/
theorem getShadowExpression_rewrites_reads_witness :
    (∀ r ∈ readRoots shadowExprW, (alookup shadowMapW r).isSome) ∧
    ((getShadowExpression shadowExprW ⟨shadowMapW, []⟩).1 =
        specShadow shadowMapW shadowExprW ∧
      (∀ x, x ∈ (getShadowExpression shadowExprW ⟨shadowMapW, []⟩).2.reps ↔
        x ∈ (readRoots shadowExprW).map (specLookup shadowMapW)) ∧
      (∀ r ∈ readRoots shadowExprW,
        specLookup shadowMapW r ∈
          (getShadowExpression shadowExprW ⟨shadowMapW, []⟩).2.reps)) :=
  ⟨by decide, getShadowExpression_rewrites_reads shadowExprW shadowMapW (by decide)⟩

/-- C8 counterexample.  Substituting a read from the unregistered array
`some 5` mutates the process-wide shadow map: `operator[]` inserts a null
entry for it, so the map's key set differs before and after the call. -/
theorem getShadowExpression_mutates_shadow_map :
    (getShadowExpression (SExpr.readE (some 5) UpdList.nil (SExpr.constE 0))
        ⟨[], []⟩).2.smap = [(some 5, none)] ∧
    ([(some 5, none)] : SMap) ≠ ([] : SMap) :=
  ⟨rfl, by decide⟩

/-- C8 (amended).  `getShadowExpression` mutates the caller-supplied
replacements set only by insertion, and leaves the process-wide shadow
map unchanged provided every array the expression reads is already
registered; an unregistered read instead inserts a null entry into the
map (see the counterexample). -/
theorem getShadowExpression_effects (e : SExpr) (s : ShadowState)
    (h : ∀ r ∈ readRoots e, (alookup s.smap r).isSome) :
    (getShadowExpression e s).2.smap = s.smap ∧
    ∀ x ∈ s.reps, x ∈ (getShadowExpression e s).2.reps := by
  rw [getShadowExpression_spec e s h]
  refine ⟨rfl, ?_⟩
  intro x hx
  exact (mem_setInsAll _ _ _).mpr (Or.inl hx)

/-- Witness for the amended C8 with a non-empty initial replacements
set. -/
theorem getShadowExpression_effects_witness :
    (∀ r ∈ readRoots shadowExprW, (alookup shadowMapW r).isSome) ∧
    ((getShadowExpression shadowExprW ⟨shadowMapW, [some 9]⟩).2.smap =
        shadowMapW ∧
      ∀ x ∈ [some 9],
        x ∈ (getShadowExpression shadowExprW ⟨shadowMapW, [some 9]⟩).2.reps) :=
  ⟨by decide,
   getShadowExpression_effects shadowExprW ⟨shadowMapW, [some 9]⟩ (by decide)⟩

end TracerX
